import Mathlib

/-!
Verification of the server-client peer network repository.

This file gives a shallow embedding of the parts of the program the claims
are about, translated from the C++ sources:

* `net.mutex` — the Ricart–Agrawala mutual-exclusion engine of
  `src/net/mutex/distributed_mutual_exclusion_service.cc`, plus a multi-node
  transition system over FIFO per-link channels.
* `net.proto` — the framed message codec of
  `src/net/proto/async_message_service.cc`, the byte helpers of
  `src/util/bytes.h`, the delimiter scanner `util::buffer::get_until` of
  `src/util/buffer.cc`, and the `Write` message codec of
  `src/net/proto/messages.cc`.
* `net.server.service` — the last-line computation and append path of
  `src/net/server/service/file_service.cc`, together with the component-level
  model of `util::fs::path::lexically_normal` / `lexically_relative` from
  `src/util/path.cc`.
-/

namespace net.mutex

/-- `DistributedMutualExclusionService::State`. -/
inductive State where
  | kWaiting
  | kRequesting
  | kInCriticalSection
deriving DecidableEq, Repr

/-- `proto::mutex::RequestMessage`: a Lamport timestamp and a file name. -/
structure RequestMessage where
  timestamp : Nat
  file_name : String
deriving DecidableEq, Repr

/-- A message exchanged between peers by the mutex engine (`Request` / `Reply`
opcodes of `proto::Opcode`; the other opcodes are ignored by the engine). -/
inductive Msg where
  | request (timestamp : Nat) (file_name : String)
  | reply (timestamp : Nat) (file_name : String)
deriving DecidableEq, Repr

/-- `DistributedMutualExclusionService::MutualExclusionRequest`.  The
`operation` callback is abstracted away: entering the critical section is
represented by the `kInCriticalSection` state, leaving it by a separate
`release` event. -/
structure MutualExclusionRequest where
  file_name : String
  timestamp : Nat
deriving DecidableEq, Repr

/-- `std::unordered_set<std::string>::emplace` on a set modelled as a
duplicate-free list. -/
def insertFile (s : String) (l : List String) : List String :=
  if s ∈ l then l else s :: l

/-- `std::unordered_set<std::string>::erase`. -/
def eraseFile (s : String) (l : List String) : List String :=
  l.filter (fun x => x ≠ s)

/-- The engine state of one node: the Lamport clock `timestamp_`, the state
`state_`, the outstanding request `my_request_`, each peer entry's
`have_permission_for` set (keyed by the peer's node ID), and the
`delayed_requests_` FIFO. -/
structure Engine where
  timestamp : Nat
  state : State
  my_request : Option MutualExclusionRequest
  have_permission_for : Nat → List String
  delayed_requests : List (Nat × RequestMessage)

/-- Update the `have_permission_for` set of the peer entry for `p`. -/
def updatePerm (e : Engine) (p : Nat) (f : List String → List String) : Engine :=
  { e with have_permission_for :=
      fun q => if q = p then f (e.have_permission_for q) else e.have_permission_for q }

/-- `DistributedMutualExclusionService::OnReceiveRequest`.  `self_id` is this
node's ID (`components_.common.options.id`), `src` the sending peer's ID
(`entry.connection.id`).  Returns the new engine state and the list of
`(destination, message)` pairs sent. -/
def OnReceiveRequest (self_id : Nat) (e : Engine) (src : Nat) (m : RequestMessage) :
    Engine × List (Nat × Msg) :=
  -- Requests force the timestamp higher.
  let e1 : Engine := { e with timestamp := max (m.timestamp + 1) (e.timestamp + 1) }
  match e1.state with
  | State.kWaiting =>
      -- I lost permission for this file from the sender; reply now.
      (updatePerm e1 src (eraseFile m.file_name),
        [(src, Msg.reply e1.timestamp m.file_name)])
  | State.kInCriticalSection =>
      -- I am in the critical section, so wait to reply.
      ({ e1 with delayed_requests := e1.delayed_requests ++ [(src, m)] }, [])
  | State.kRequesting =>
      match e1.my_request with
      | none =>
          -- `my_request_.value()` on an empty optional cannot happen in the
          -- source: `kRequesting` is only entered with the request slot filled.
          (e1, [])
      | some mine =>
          if mine.file_name ≠ m.file_name then
            -- Different file, so we can reply.
            (updatePerm e1 src (eraseFile m.file_name),
              [(src, Msg.reply e1.timestamp m.file_name)])
          else if mine.timestamp > m.timestamp ∨
              (mine.timestamp = m.timestamp ∧ self_id > src) then
            -- Their request for the same file has higher priority over mine.
            (e1, [(src, Msg.reply e1.timestamp m.file_name)])
          else
            -- My request has higher priority, so I will not reply now.
            ({ e1 with delayed_requests := e1.delayed_requests ++ [(src, m)] }, [])

/-- `DistributedMutualExclusionService::CheckForMutualExclusion`; `peers` is
the list of peer IDs of the `network_` entries. -/
def CheckForMutualExclusion (peers : List Nat) (e : Engine) : Engine :=
  match e.my_request with
  | none =>
      -- `my_request_.value()` on an empty optional cannot happen in the source.
      e
  | some req =>
      if peers.all (fun p => decide (req.file_name ∈ e.have_permission_for p)) then
        { e with state := State.kInCriticalSection }
      else e

/-- The `kReply` branch of `DistributedMutualExclusionService::OnReceiveMessage`:
replies force the timestamp higher, record the permission, and re-check the
entry condition. -/
def OnReceiveReply (peers : List Nat) (e : Engine) (src : Nat)
    (reply_timestamp : Nat) (file_name : String) : Engine :=
  let e1 : Engine := { e with timestamp := max (reply_timestamp + 1) (e.timestamp + 1) }
  CheckForMutualExclusion peers (updatePerm e1 src (insertFile file_name))

/-- `DistributedMutualExclusionService::RequestMutualExclusion`. -/
def RequestMutualExclusion (peers : List Nat) (e : Engine) : Engine × List (Nat × Msg) :=
  let e1 : Engine := { e with state := State.kRequesting }
  match e1.my_request with
  | none => (e1, [])
  | some req =>
      -- Request permission from every node I do not have permission from.
      (e1, (peers.filter
              (fun p => decide (req.file_name ∉ e1.have_permission_for p))).map
            (fun p => (p, Msg.request req.timestamp req.file_name)))

/-- `DistributedMutualExclusionService::RunWithMutualExclusion`.  On a
precondition violation the operation is invoked with an
`Operation already in progress` error and the engine state is untouched. -/
def RunWithMutualExclusion (peers : List Nat) (e : Engine) (file_name : String) :
    Engine × List (Nat × Msg) :=
  if e.my_request.isSome ∨ e.state ≠ State.kWaiting then (e, [])
  else
    let e1 : Engine := { e with my_request := some ⟨file_name, e.timestamp⟩ }
    let r := RequestMutualExclusion peers e1
    (CheckForMutualExclusion peers r.1, r.2)

/-- `DistributedMutualExclusionService::DeliverDelayedRequests`: pop the front
of the queue, re-dispatch it through `OnReceiveRequest`, repeat.  The fuel
argument bounds the loop; the caller passes the queue length, which suffices
because the handler never appends while the node is `kWaiting`. -/
def DeliverDelayedRequests (self_id : Nat) : Nat → Engine → Engine × List (Nat × Msg)
  | 0, e => (e, [])
  | fuel + 1, e =>
      match e.delayed_requests with
      | [] => (e, [])
      | (src, m) :: _ =>
          let r := OnReceiveRequest self_id e src m
          let e1 : Engine := { r.1 with delayed_requests := r.1.delayed_requests.drop 1 }
          let r2 := DeliverDelayedRequests self_id fuel e1
          (r2.1, r.2 ++ r2.2)

/-- `DistributedMutualExclusionService::ReleaseMutualExclusion`: clear the
request slot, go back to `kWaiting`, drain the delayed-request queue. -/
def ReleaseMutualExclusion (self_id : Nat) (e : Engine) : Engine × List (Nat × Msg) :=
  let e1 : Engine := { e with my_request := none, state := State.kWaiting }
  DeliverDelayedRequests self_id e1.delayed_requests.length e1

/-- The initial engine state: clock 0, `kWaiting`, no request, no retained
permissions, empty delayed queue. -/
def initEngine : Engine :=
  { timestamp := 0
    state := State.kWaiting
    my_request := none
    have_permission_for := fun _ => []
    delayed_requests := [] }

/-! ### The multi-node system

A global state is one engine per node ID plus a FIFO message queue per
directed peer link (TCP delivers in send order within one link). -/

/-- Global state of the cluster. -/
structure Sys where
  nodes : Nat → Engine
  chan : Nat → Nat → List Msg

/-- The peer list of node `n` in a cluster with node IDs `ids`. -/
def peersOf (ids : List Nat) (n : Nat) : List Nat :=
  ids.filter (fun m => m ≠ n)

/-- All nodes start in `initEngine` with empty channels. -/
def initSys : Sys :=
  { nodes := fun _ => initEngine, chan := fun _ _ => [] }

/-- Replace the engine of node `n`. -/
def setNode (s : Sys) (n : Nat) (e : Engine) : Sys :=
  { s with nodes := fun m => if m = n then e else s.nodes m }

/-- Pop the head of the channel from `src` to `dst`. -/
def popChan (s : Sys) (src dst : Nat) : Sys :=
  { s with chan := fun a b =>
      if a = src ∧ b = dst then (s.chan a b).drop 1 else s.chan a b }

/-- Enqueue the messages `outs` sent by node `src`, in order. -/
def enqueueAll (s : Sys) (src : Nat) (outs : List (Nat × Msg)) : Sys :=
  outs.foldl
    (fun t pm =>
      { t with chan := fun a b =>
          if a = src ∧ b = pm.1 then t.chan a b ++ [pm.2] else t.chan a b })
    s

/-- An interleaving event: deliver the head message of one link, enter a local
request (`RunWithMutualExclusion`), or release the critical section (the `op`
callback invoking its `done` continuation). -/
inductive Event where
  | deliver (src dst : Nat)
  | localRequest (n : Nat) (file_name : String)
  | release (n : Nat)
deriving DecidableEq, Repr

/-- Apply one event to the global state. -/
def applyEvent (ids : List Nat) (s : Sys) : Event → Sys
  | Event.deliver src dst =>
      match s.chan src dst with
      | [] => s
      | m :: _ =>
          let s1 := popChan s src dst
          match m with
          | Msg.request ts fn =>
              let r := OnReceiveRequest dst (s1.nodes dst) src ⟨ts, fn⟩
              enqueueAll (setNode s1 dst r.1) dst r.2
          | Msg.reply ts fn =>
              setNode s1 dst (OnReceiveReply (peersOf ids dst) (s1.nodes dst) src ts fn)
  | Event.localRequest n fn =>
      let r := RunWithMutualExclusion (peersOf ids n) (s.nodes n) fn
      enqueueAll (setNode s n r.1) n r.2
  | Event.release n =>
      let r := ReleaseMutualExclusion n (s.nodes n)
      enqueueAll (setNode s n r.1) n r.2

/-- Whether an event can fire: a delivery needs a pending message on a real
link; a release needs the node to be in its critical section; a local request
may be attempted at any time (the engine rejects it itself when busy). -/
def enabledEvent (ids : List Nat) (s : Sys) : Event → Bool
  | Event.deliver src dst =>
      ids.contains src && ids.contains dst && (src ≠ dst : Bool) &&
        !(s.chan src dst).isEmpty
  | Event.localRequest n _ => ids.contains n
  | Event.release n =>
      ids.contains n && decide ((s.nodes n).state = State.kInCriticalSection)

/-- One step of the multi-node system. -/
def Step (ids : List Nat) (s t : Sys) : Prop :=
  ∃ ev, enabledEvent ids s ev = true ∧ t = applyEvent ids s ev

/-- Reachability from the initial state over arbitrary interleavings. -/
def Reachable (ids : List Nat) (s : Sys) : Prop :=
  Relation.ReflTransGen (Step ids) initSys s

/-- Run a list of events in order. -/
def runTrace (ids : List Nat) (s : Sys) : List Event → Sys
  | [] => s
  | ev :: rest => runTrace ids (applyEvent ids s ev) rest

/-- Every event of the trace is enabled at the state where it fires. -/
def traceEnabled (ids : List Nat) (s : Sys) : List Event → Bool
  | [] => true
  | ev :: rest =>
      enabledEvent ids s ev && traceEnabled ids (applyEvent ids s ev) rest

end net.mutex

namespace net.proto

/-- `net::proto::kMaxBodySize`. -/
def kMaxBodySize : Nat := 2 ^ 32 - 1

/-- `net::proto::Message`: a one-byte opcode and an opaque byte body.  Bytes
are modelled as natural numbers; the C++ values are always below 256. -/
structure Message where
  opcode : Nat
  body : List Nat
deriving DecidableEq, Repr

/-- `util::bytes::insert<N>`: write `n` bytes of `v`, least-significant byte
first (`dest.push_back(byte_string & 0xFF); byte_string >>= 8`). -/
def bytesInsert : Nat → Nat → List Nat
  | 0, _ => []
  | n + 1, v => (v % 256) :: bytesInsert n (v / 256)

/-- `util::bytes::extract<N>`: read `n` bytes, least-significant byte first
(`result |= src.get() << (i << 3)`; for byte values below 256 the bitwise or
of the disjoint byte positions equals addition).  Returns the value and the
rest of the buffer, or `none` on underflow. -/
def bytesExtract : Nat → List Nat → Option (Nat × List Nat)
  | 0, rest => some (0, rest)
  | _ + 1, [] => none
  | n + 1, b :: rest =>
      match bytesExtract n rest with
      | none => none
      | some (v, rest2) => some (b + 256 * v, rest2)

/-- `AsyncMessageService::PutMessageInOutputBuffer`: refuse oversized bodies,
otherwise emit the one-byte opcode, the four-byte little-endian body length,
and the body. -/
def PutMessageInOutputBuffer (msg : Message) : Option (List Nat) :=
  if msg.body.length > kMaxBodySize then none
  else some (msg.opcode :: (bytesInsert 4 msg.body.length ++ msg.body))

/-- The three phases of `AsyncMessageService::ProcessBytesIntoCurrentMessage`
run over a complete byte stream: read the opcode byte, the four-byte body
length, then exactly that many body bytes.  Returns the parsed message and
the unconsumed bytes. -/
def ProcessBytesIntoCurrentMessage (input : List Nat) :
    Option (Message × List Nat) :=
  match input with
  | [] => none
  | op :: rest =>
      match bytesExtract 4 rest with
      | none => none
      | some (expected, rest2) =>
          if expected ≤ rest2.length then
            some (⟨op, rest2.take expected⟩, rest2.drop expected)
          else none

/-- `net::proto::kStringDelimiter` (`"\r\n"`). -/
def kStringDelimiter : List Char := ['\r', '\n']

/-- `util::buffer::get_until`: scan the buffer for the delimiter, returning
the bytes before it and the rest of the buffer.  `delim_pos` is the number of
delimiter characters matched so far; on a mismatch after a partial match the
matched prefix and the mismatching character are appended to the output and
the scan restarts with `delim_pos = 0` (without re-examining that
character). -/
def get_until (delim : List Char) : List Char → List Char → Nat → List Char × List Char
  | [], output, _ => (output, [])
  | next :: rest, output, delim_pos =>
      if next = delim.getD delim_pos ' ' then
        if delim_pos + 1 = delim.length then (output, rest)
        else get_until delim rest output (delim_pos + 1)
      else
        get_until delim rest (output ++ delim.take delim_pos ++ [next]) 0

/-- `net::proto::WriteMessage`. -/
structure WriteMessage where
  file_name : List Char
  line : List Char
deriving DecidableEq, Repr

/-- The body built by `WriteMessage::ToMessage`:
`file_name ‖ "\r\n" ‖ line`. -/
def WriteMessage.toBody (w : WriteMessage) : List Char :=
  w.file_name ++ kStringDelimiter ++ w.line

/-- `Message::ToWrite`: `get_until` the delimiter to recover the file name,
the remaining buffer is the line. -/
def ToWrite (body : List Char) : WriteMessage :=
  let r := get_until kStringDelimiter body [] 0
  ⟨r.1, r.2⟩

end net.proto

namespace net.server.service

/-- The backward scan loop of `FileService::ReadLastLine`: starting from
position `pos`, repeatedly seek back one character and peek, stopping at the
first newline found; `none` when the seek hits the start of the file without
finding one. -/
def scanBackForNewline (content : List Char) : Nat → Option Nat
  | 0 => none
  | p + 1 =>
      if content.getD p ' ' = '\n' then some p else scanBackForNewline content p

/-- The last-line computation of `FileService::ReadLastLine` on the file's
content (the path-validation prologue is modelled separately as
`readValidationFails`; reading the file itself is a platform primitive).
Mirrors the seek logic: empty file gives the empty string; a lone trailing
newline with nothing before it gives the empty string; otherwise the loop
scans backwards for the previous newline starting just before the trailing
newline (if any).  When the loop finds a newline it is eaten and `getline`
reads from there.  When the loop instead runs out of characters, it is
because `seekg(-1)` failed at position 0; that failure sets the stream's
failbit, which is never cleared, so the subsequent `getline` extracts
nothing and the function returns the empty string. -/
def ReadLastLine (content : List Char) : List Char :=
  -- `seekg(-1, end)` fails exactly on the empty file
  if content.length = 0 then []
  -- a trailing newline with no character before it: the last line is empty
  else if content.getD (content.length - 1) ' ' = '\n' ∧ content.length - 1 = 0
    then []
  else
    -- the scan starts just before the trailing newline, if there is one
    match scanBackForNewline content
        (if content.getD (content.length - 1) ' ' = '\n'
          then content.length - 1 - 1 else content.length - 1) with
    | some j => (content.drop (j + 1)).takeWhile (fun c => c ≠ '\n')
    | none => []  -- failbit is set by the failed seek; `getline` reads nothing

/-- Modelled from the spec: the last line is the text after the last newline
(the whole content when it has none), where a single trailing newline is
ignored — the reading under which the spec's own examples (`"a\nb\n"` gives
`"b"`, a file that is exactly one newline gives `""`) are consistent. -/
def SpecLastLine (content : List Char) : List Char :=
  ((if content.getLast? = some '\n' then content.dropLast
      else content).reverse.takeWhile (fun c => c ≠ '\n')).reverse

/-! ### The `util::fs::path` model

`util::fs::path` (src/util/path.cc) always has `root_name_length() = 0`, so a
path is determined by whether it is absolute (begins with the separator) and
its iteration components.  We model a path as that pair; the component list
contains the file names in order, with a final `""` entry exactly when the
underlying string ends in a separator (matching the path iterator, which
yields an empty trailing component then).  The leading root-directory
component of an absolute path is represented by the `abs` flag. -/

/-- A `util::fs::path` value, as the iterator presents it. -/
structure RPath where
  abs : Bool
  comps : List String
deriving DecidableEq, Repr

/-- The tail of the separator-collapsing scan: drop a separator that follows
another separator. -/
def collapseSepsAux (prev : Char) : List Char → List Char
  | [] => []
  | c :: rest =>
      if prev = '/' ∧ c = '/' then collapseSepsAux prev rest
      else c :: collapseSepsAux c rest

/-- Collapse runs of separators, as `path::process_assigned_path`'s
`std::unique` call does.  (The network-name case of a leading exact double
slash is not modelled; the server's root and the file names of interest do
not use network names.) -/
def collapseSeps : List Char → List Char
  | [] => []
  | c :: rest => c :: collapseSepsAux c rest

/-- Split a character list into the separator-delimited pieces. -/
def splitOnSlash : List Char → List (List Char)
  | [] => [[]]
  | c :: rest =>
      match splitOnSlash rest with
      | [] => [[c]]
      | h :: t => if c = '/' then [] :: h :: t else (c :: h) :: t

/-- Parse a string into a `path` (constructor plus iteration): collapse
duplicate separators, note whether the path is absolute, then split the rest
at the separators. -/
def parsePath (s : String) : RPath :=
  if (collapseSeps s.toList).headI = '/' then
    if (collapseSeps s.toList).drop 1 = [] then ⟨true, []⟩
    else ⟨true, (splitOnSlash ((collapseSeps s.toList).drop 1)).map
        (fun l => String.mk l)⟩
  else
    if collapseSeps s.toList = [] then ⟨false, []⟩
    else ⟨false, (splitOnSlash (collapseSeps s.toList)).map
        (fun l => String.mk l)⟩

/-- `path::operator/=` with an empty right-hand side: append a trailing
separator when the path is non-empty and does not already end in one. -/
def addTrailingSep (p : RPath) : RPath :=
  if p.comps ≠ [] ∧ p.comps.getLast? ≠ some "" then ⟨p.abs, p.comps ++ [""]⟩
  else p

/-- `path::operator/=` with a regular (non-empty, relative) component:
append it after the separator, replacing a trailing empty component. -/
def appendComp (p : RPath) (name : String) : RPath :=
  ⟨p.abs, (if p.comps.getLast? = some "" then p.comps.dropLast else p.comps) ++ [name]⟩

/-- `path::operator/=`: an absolute right-hand side replaces the path
(root names are always empty here); an empty one adds a trailing separator;
otherwise the components are appended one by one. -/
def pathAppend (p q : RPath) : RPath :=
  if q.abs then q
  else
    match q.comps with
    | [] => addTrailingSep p
    | _ => ⟨p.abs, (if p.comps.getLast? = some "" then p.comps.dropLast else p.comps)
                      ++ q.comps⟩

/-- The `pop_back`-separator-then-`remove_filename` sequence in the `".."`
branch of `path::lexically_normal`. -/
def popFilename (p : RPath) : RPath :=
  let c := if p.comps.getLast? = some "" then p.comps.dropLast else p.comps
  let c2 := c.dropLast
  if c2 = [] then ⟨p.abs, []⟩ else ⟨p.abs, c2 ++ [""]⟩

/-- The loop body of `path::lexically_normal` over the iteration components
(for an absolute path the leading root component `"/"` has already reset the
accumulator).  `isAbs` is whether the path being normalised is absolute, so
the `normalized == root` guard compares against `"/"`; `last_dot_dot` is the
flag carried across iterations (the `continue`d branches skip its update, as
in the source). -/
def lexicallyNormalLoop (isAbs : Bool) :
    List String → RPath → Bool → RPath
  | [], normalized, _ =>
      if normalized = ⟨false, []⟩ then ⟨false, ["."]⟩ else normalized
  | name :: rest, normalized, last_dot_dot =>
      if name = "." then
        lexicallyNormalLoop isAbs rest (addTrailingSep normalized) last_dot_dot
      else if name = ".." ∧ normalized ≠ ⟨false, []⟩ then
        if isAbs ∧ normalized = ⟨true, []⟩ then
          lexicallyNormalLoop isAbs rest normalized last_dot_dot
        else if normalized.comps.getLast? ≠ some ".." then
          lexicallyNormalLoop isAbs rest (popFilename normalized) last_dot_dot
        else
          lexicallyNormalLoop isAbs rest (appendComp normalized "..") true
      else
        let normalized :=
          if name = "" ∧ last_dot_dot then normalized
          else if name = "" then addTrailingSep normalized
          else appendComp normalized name
        lexicallyNormalLoop isAbs rest normalized (name = "..")

/-- `path::lexically_normal`. -/
def lexically_normal (p : RPath) : RPath :=
  if p.abs then lexicallyNormalLoop true p.comps ⟨true, []⟩ false
  else lexicallyNormalLoop false p.comps ⟨false, []⟩ false

/-- Length of the longest common prefix of two component lists. -/
def commonPrefixLen : List String → List String → Nat
  | x :: xs, y :: ys => if x = y then commonPrefixLen xs ys + 1 else 0
  | _, _ => 0

/-- The counting loop of `path::lexically_relative` over the part of the base
past the mismatch: regular names count one, `".."` counts minus one, `""` and
`"."` count nothing. -/
def relativeCount (names : List String) : Int :=
  names.foldl
    (fun acc name =>
      if name ≠ "" ∧ name ≠ "." ∧ name ≠ ".." then acc + 1
      else if name = ".." then acc - 1
      else acc)
    0

/-- `path::lexically_relative` (root names are always empty in this path
implementation, so only absoluteness must agree). -/
def lexically_relative (p base : RPath) : RPath :=
  if p.abs ≠ base.abs then ⟨false, []⟩
  else
    let k := commonPrefixLen p.comps base.comps
    if k = p.comps.length ∧ k = base.comps.length then ⟨false, ["."]⟩
    else
      let count := relativeCount (base.comps.drop k)
      if count < 0 then ⟨false, []⟩
      else ⟨false, List.replicate count.toNat ".." ++ p.comps.drop k⟩

/-- The path `".."`, which the validation checks compare against. -/
def dotdotPath : RPath := ⟨false, [".."]⟩

/-- The full path `root_ / name`, normalised, as both `ReadLastLine` and
`AppendLine` compute it. -/
def fullPath (root : RPath) (name : String) : RPath :=
  lexically_normal (pathAppend root (parsePath name))

/-- The validation prologue of `FileService::ReadLastLine`:
`root_.lexically_relative(full_path) != ".." || name[0] == '.'`
(`name[0]` on an empty `std::string` reads the null terminator). -/
def readValidationFails (root : RPath) (name : String) : Bool :=
  lexically_relative root (fullPath root name) ≠ dotdotPath ∨
    name.toList.getD 0 '\x00' = '.'

/-- The validation of `FileService::AppendLine`:
`root_.lexically_relative(full_path) != ".."` — and nothing else; there is no
hidden-file test on the write path. -/
def writeValidationFails (root : RPath) (name : String) : Bool :=
  lexically_relative root (fullPath root name) ≠ dotdotPath

/-- `FileService::AppendLine`.  The file store maps resolved paths to
contents; appending writes `line + '\n'` at the resolved path (the
`std::ofstream` append-open is the out-of-scope filesystem primitive and is
modelled as always succeeding, creating the file when absent). -/
def AppendLine (root : RPath) (files : RPath → List Char) (name line : String) :
    Except String (RPath → List Char) :=
  if writeValidationFails root name then Except.error "Invalid file access"
  else
    Except.ok fun p =>
      if p = fullPath root name then files p ++ line.toList ++ ['\n'] else files p

/-- The reply a server handler sends back. -/
inductive ServerReply where
  | ok
  | error (message : String)
deriving DecidableEq, Repr

/-- The `HandleWrite` state of `Project2Service` (src/net/server/impl/
project2_service.cc): run `AppendLine`; reply `Ok` on success and
`Error{message}` on failure (in which case no file changes). -/
def HandleWrite (root : RPath) (files : RPath → List Char) (name line : String) :
    (RPath → List Char) × ServerReply :=
  match AppendLine root files name line with
  | Except.ok files2 => (files2, ServerReply.ok)
  | Except.error e => (files, ServerReply.error e)

end net.server.service

namespace net.mutex

/-- A 3-node schedule (IDs 1, 2, 3, all requesting file `"f"`) exercising the
retained-permission path: node 1 acquires and releases, node 3 takes node 1's
permission for the pair (1,3) back, then nodes 1 and 2 race; node 1 concedes
priority to node 2 without surrendering the retained pair-(1,2) permission,
after which both enter the critical section. -/
def violationSchedule : List Event :=
  [ Event.localRequest 1 "f"
  , Event.deliver 1 2
  , Event.deliver 1 3
  , Event.deliver 2 1
  , Event.deliver 3 1
  , Event.release 1
  , Event.localRequest 3 "f"
  , Event.deliver 3 1
  , Event.deliver 3 2
  , Event.deliver 1 3
  , Event.deliver 2 3
  , Event.release 3
  , Event.localRequest 1 "f"
  , Event.localRequest 2 "f"
  , Event.deliver 2 1
  , Event.deliver 2 3
  , Event.deliver 1 2
  , Event.deliver 3 2
  , Event.deliver 1 3
  , Event.deliver 3 1 ]

/-- A waiting engine with clock 5 and no retained permissions. -/
def engineClock5 : Engine :=
  { timestamp := 5
    state := State.kWaiting
    my_request := none
    have_permission_for := fun _ => []
    delayed_requests := [] }

/-- A requesting engine with clock 5 and outstanding request `("f", 5)`. -/
def engineRequesting5 : Engine :=
  { timestamp := 5
    state := State.kRequesting
    my_request := some ⟨"f", 5⟩
    have_permission_for := fun _ => []
    delayed_requests := [] }

/-- A waiting engine that retains permission for `"f"` from its only peer,
node 2. -/
def engineRetained : Engine :=
  { timestamp := 5
    state := State.kWaiting
    my_request := none
    have_permission_for := fun p => if p = 2 then ["f"] else []
    delayed_requests := [] }

end net.mutex

namespace net.server.service

/-- A server root directory `/root`. -/
def rootExample : RPath := ⟨true, ["root"]⟩

/-- An empty file store. -/
def emptyFiles : RPath → List Char := fun _ => []

/-- The content the append result holds at a path, `none` when the append
failed. -/
def appendResultAt (r : Except String (RPath → List Char)) (p : RPath) :
    Option (List Char) :=
  match r with
  | Except.ok f => some (f p)
  | Except.error _ => none

end net.server.service

namespace net.mutex

/-- A trace whose every event is enabled where it fires yields reachability. -/
theorem reachable_of_traceEnabled (ids : List Nat) :
    ∀ (tr : List Event) (s : Sys), traceEnabled ids s tr = true →
      Relation.ReflTransGen (Step ids) s (runTrace ids s tr) := by
  intro tr
  induction tr with
  | nil =>
      intro s _
      exact Relation.ReflTransGen.refl
  | cons ev rest ih =>
      intro s h
      rw [traceEnabled, Bool.and_eq_true] at h
      exact Relation.ReflTransGen.head ⟨ev, h.1, rfl⟩ (ih _ h.2)

/-- C1: the claim that no two distinct nodes are ever simultaneously
in-critical-section for the same filename is refuted on the code: after the
concrete 3-node schedule `violationSchedule`, nodes 1 and 2 are both in the
critical section with outstanding requests naming the file `"f"`.  The root
cause is the requesting-state branch of `OnReceiveRequest` that concedes
priority for the same file without erasing the retained permission. -/
theorem mutual_exclusion_violation :
    ∃ s, Reachable [1, 2, 3] s ∧
      (s.nodes 1).state = State.kInCriticalSection ∧
      (s.nodes 2).state = State.kInCriticalSection ∧
      (s.nodes 1).my_request.map MutualExclusionRequest.file_name = some "f" ∧
      (s.nodes 2).my_request.map MutualExclusionRequest.file_name = some "f" := by
  refine ⟨runTrace [1, 2, 3] initSys violationSchedule,
    reachable_of_traceEnabled [1, 2, 3] violationSchedule initSys (by decide),
    by decide, by decide, by decide, by decide⟩

/-- C2 counterexample: from a waiting engine with clock 5 and no retained
permissions, `RunWithMutualExclusion` records the outstanding request at the
*current* clock 5 and sends `Request{5}`, and the clock stays 5 — there is no
tick to 6, and the sent timestamp is not strictly greater than the clock
before the call. -/
theorem run_no_tick_counterexample :
    engineClock5.timestamp = 5 ∧
    (RunWithMutualExclusion [2] engineClock5 "f").2 = [(2, Msg.request 5 "f")] ∧
    (RunWithMutualExclusion [2] engineClock5 "f").1.my_request = some ⟨"f", 5⟩ ∧
    (RunWithMutualExclusion [2] engineClock5 "f").1.timestamp = 5 ∧
    ¬ 5 > engineClock5.timestamp := by
  decide

/-- C2 (amended): on request entry from a waiting engine with no outstanding
request, the engine does *not* tick the clock; it records the outstanding
request `(filename, T)` at the current clock `T`, leaves the clock at `T`,
and every `Request` message sent carries exactly `T`. -/
theorem run_records_current_clock (peers : List Nat) (e : Engine) (fn : String)
    (h1 : e.state = State.kWaiting) (h2 : e.my_request = none) :
    (RunWithMutualExclusion peers e fn).1.timestamp = e.timestamp ∧
    (RunWithMutualExclusion peers e fn).1.my_request = some ⟨fn, e.timestamp⟩ ∧
    ∀ pm ∈ (RunWithMutualExclusion peers e fn).2,
      pm.2 = Msg.request e.timestamp fn := by
  simp only [RunWithMutualExclusion, RequestMutualExclusion,
    CheckForMutualExclusion, h1, h2, Option.isSome_none, Bool.false_eq_true,
    ne_eq, not_true_eq_false, or_self, if_false]
  constructor
  · split <;> rfl
  constructor
  · split <;> rfl
  · intro pm hpm
    simp only [List.mem_map] at hpm
    obtain ⟨p, _, rfl⟩ := hpm
    rfl

/-- Witness for `run_records_current_clock`. -/
theorem run_records_current_clock_witness :
    (RunWithMutualExclusion [2] engineClock5 "g").1.timestamp =
        engineClock5.timestamp ∧
    (RunWithMutualExclusion [2] engineClock5 "g").1.my_request =
        some ⟨"g", engineClock5.timestamp⟩ ∧
    ∀ pm ∈ (RunWithMutualExclusion [2] engineClock5 "g").2,
      pm.2 = Msg.request engineClock5.timestamp "g" :=
  run_records_current_clock [2] engineClock5 "g" (by decide) (by decide)

end net.mutex

namespace net.mutex

/-- C3: a node in state requesting with outstanding request `(myFn, myTs)`
receiving `Request{ts, myFn}` for the same file from peer `src` defers
(appending to the delayed queue, sending nothing) exactly when
`(myTs, self_id)` is strictly lexicographically smaller than `(ts, src)`;
otherwise it sends a `Reply` (carrying the updated clock) and defers nothing.
In particular an equal-timestamp request from a lower-ID peer wins and gets
the `Reply`. -/
theorem on_receive_request_same_file_priority (self_id src : Nat) (e : Engine)
    (m : RequestMessage) (myTs : Nat) (hid : self_id ≠ src)
    (hs : e.state = State.kRequesting)
    (hr : e.my_request = some ⟨m.file_name, myTs⟩) :
    if myTs < m.timestamp ∨ (myTs = m.timestamp ∧ self_id < src) then
      (OnReceiveRequest self_id e src m).1.delayed_requests =
          e.delayed_requests ++ [(src, m)] ∧
        (OnReceiveRequest self_id e src m).2 = []
    else
      (OnReceiveRequest self_id e src m).2 =
          [(src, Msg.reply (max (m.timestamp + 1) (e.timestamp + 1)) m.file_name)] ∧
        (OnReceiveRequest self_id e src m).1.delayed_requests =
          e.delayed_requests := by
  by_cases hc : myTs < m.timestamp ∨ (myTs = m.timestamp ∧ self_id < src)
  · rw [if_pos hc]
    have hnot : ¬ (myTs > m.timestamp ∨ (myTs = m.timestamp ∧ self_id > src)) := by
      omega
    simp [OnReceiveRequest, hs, hr, hnot]
  · rw [if_neg hc]
    have hyes : myTs > m.timestamp ∨ (myTs = m.timestamp ∧ self_id > src) := by
      omega
    simp [OnReceiveRequest, hs, hr, hyes]

/-- Witness for `on_receive_request_same_file_priority`: node 2 requesting
`("f", 5)` receives `Request{5, "f"}` from the lower-ID peer 1; the peer wins
and is sent the `Reply`. -/
theorem on_receive_request_same_file_priority_witness :
    if (5 : Nat) < 5 ∨ ((5 : Nat) = 5 ∧ (2 : Nat) < 1) then
      (OnReceiveRequest 2 engineRequesting5 1 ⟨5, "f"⟩).1.delayed_requests =
          engineRequesting5.delayed_requests ++ [(1, ⟨5, "f"⟩)] ∧
        (OnReceiveRequest 2 engineRequesting5 1 ⟨5, "f"⟩).2 = []
    else
      (OnReceiveRequest 2 engineRequesting5 1 ⟨5, "f"⟩).2 =
          [(1, Msg.reply (max (5 + 1) (engineRequesting5.timestamp + 1)) "f")] ∧
        (OnReceiveRequest 2 engineRequesting5 1 ⟨5, "f"⟩).1.delayed_requests =
          engineRequesting5.delayed_requests :=
  on_receive_request_same_file_priority 2 1 engineRequesting5 ⟨5, "f"⟩ 5
    (by decide) (by decide) (by decide)

/-- C4 counterexample: with clock `T = 5` and an incoming `Reply{ts = 0}`,
the code sets the clock to `max(0+1, 5+1) = 6`, while the claimed update
`max(T, ts+1)` gives 5. -/
theorem on_receive_reply_clock_counterexample :
    engineRequesting5.timestamp = 5 ∧
    (OnReceiveReply [2] engineRequesting5 2 0 "g").timestamp = 6 ∧
    max engineRequesting5.timestamp (0 + 1) = 5 ∧ (6 : Nat) ≠ 5 := by
  decide

/-- C4 (amended): on receiving `Reply{ts, filename}` from peer `src`, the
engine updates the clock to `max(ts + 1, T + 1)` (that is, `max(T, ts) + 1`),
adds the filename to the have-permission-for set of `src`, and re-evaluates
the entry condition — entering the critical section exactly when every peer
now holds the outstanding request's filename; the request slot, the delayed
queue, and every other peer's permission set are unchanged. -/
theorem on_receive_reply_spec (peers : List Nat) (e : Engine) (src ts : Nat)
    (fn : String) (req : MutualExclusionRequest)
    (hr : e.my_request = some req) :
    (OnReceiveReply peers e src ts fn).timestamp =
        max (ts + 1) (e.timestamp + 1) ∧
    (OnReceiveReply peers e src ts fn).have_permission_for src =
        insertFile fn (e.have_permission_for src) ∧
    (∀ p, p ≠ src → (OnReceiveReply peers e src ts fn).have_permission_for p =
        e.have_permission_for p) ∧
    (OnReceiveReply peers e src ts fn).my_request = e.my_request ∧
    (OnReceiveReply peers e src ts fn).delayed_requests = e.delayed_requests ∧
    (OnReceiveReply peers e src ts fn).state =
      (if peers.all (fun p => decide (req.file_name ∈
            (if p = src then insertFile fn (e.have_permission_for p)
              else e.have_permission_for p)))
        then State.kInCriticalSection else e.state) := by
  simp only [OnReceiveReply, CheckForMutualExclusion, updatePerm, hr]
  split
  · simp_all
  · simp_all

/-- Witness for `on_receive_reply_spec`. -/
theorem on_receive_reply_spec_witness :
    (OnReceiveReply [2] engineRequesting5 2 0 "g").timestamp =
        max (0 + 1) (engineRequesting5.timestamp + 1) ∧
    (OnReceiveReply [2] engineRequesting5 2 0 "g").have_permission_for 2 =
        insertFile "g" (engineRequesting5.have_permission_for 2) ∧
    (∀ p, p ≠ 2 →
      (OnReceiveReply [2] engineRequesting5 2 0 "g").have_permission_for p =
        engineRequesting5.have_permission_for p) ∧
    (OnReceiveReply [2] engineRequesting5 2 0 "g").my_request =
        engineRequesting5.my_request ∧
    (OnReceiveReply [2] engineRequesting5 2 0 "g").delayed_requests =
        engineRequesting5.delayed_requests ∧
    (OnReceiveReply [2] engineRequesting5 2 0 "g").state =
      (if [2].all (fun p => decide (("f" : String) ∈
            (if p = 2 then insertFile "g" (engineRequesting5.have_permission_for p)
              else engineRequesting5.have_permission_for p)))
        then State.kInCriticalSection else engineRequesting5.state) :=
  on_receive_reply_spec [2] engineRequesting5 2 0 "g" ⟨"f", 5⟩ (by decide)

end net.mutex

namespace net.mutex

/-- C5: on request entry (waiting, no outstanding request) a `Request` is
sent exactly to the peers whose have-permission-for set lacks the requested
filename, each carrying the recorded timestamp; consequently when every peer
already holds the filename (permissions retained from an earlier run, none
taken back by an intervening `Request`), zero `Request` messages are sent and
the node enters the critical section immediately (its `op` is invoked without
waiting for any `Reply`).  The final conjuncts supply the in-between frame
facts: a release with an empty delayed queue leaves every permission set
unchanged, and an incoming `Request` for a different filename never changes
the membership of the requested filename in any permission set — so only a
`Request` for the filename itself can take a retained permission back. -/
theorem request_entry_sends_exactly_missing (peers : List Nat) (e : Engine)
    (fn : String) (h1 : e.state = State.kWaiting) (h2 : e.my_request = none) :
    (RunWithMutualExclusion peers e fn).2 =
      (peers.filter (fun p => decide (fn ∉ e.have_permission_for p))).map
        (fun p => (p, Msg.request e.timestamp fn)) ∧
    ((∀ p ∈ peers, fn ∈ e.have_permission_for p) →
      (RunWithMutualExclusion peers e fn).2 = [] ∧
      (RunWithMutualExclusion peers e fn).1.state = State.kInCriticalSection) ∧
    (∀ (self_id : Nat) (e2 : Engine), e2.delayed_requests = [] →
      (ReleaseMutualExclusion self_id e2).1.have_permission_for =
        e2.have_permission_for) ∧
    (∀ (self_id : Nat) (e2 : Engine) (src : Nat) (m : RequestMessage)
        (p : Nat), m.file_name ≠ fn →
      (fn ∈ (OnReceiveRequest self_id e2 src m).1.have_permission_for p ↔
        fn ∈ e2.have_permission_for p)) := by
  have hbase :
      (RunWithMutualExclusion peers e fn).2 =
        (peers.filter (fun p => decide (fn ∉ e.have_permission_for p))).map
          (fun p => (p, Msg.request e.timestamp fn)) := by
    simp [RunWithMutualExclusion, RequestMutualExclusion, h1, h2]
  refine ⟨hbase, fun hall => ⟨?_, ?_⟩, ?_, ?_⟩
  · rw [hbase]
    have : peers.filter (fun p => decide (fn ∉ e.have_permission_for p)) = [] := by
      rw [List.filter_eq_nil_iff]
      intro p hp
      simpa using hall p hp
    rw [this]
    rfl
  · have hcheck :
        peers.all (fun p => decide (fn ∈ e.have_permission_for p)) = true := by
      rw [List.all_eq_true]
      intro p hp
      simpa using hall p hp
    simp [RunWithMutualExclusion, RequestMutualExclusion,
      CheckForMutualExclusion, h1, h2, hcheck]
  · intro self_id e2 hd
    simp [ReleaseMutualExclusion, DeliverDelayedRequests, hd]
  · intro self_id e2 src m p hm
    have hfnm : fn ≠ m.file_name := fun he => hm he.symm
    have herase : ∀ l : List String, fn ∈ eraseFile m.file_name l ↔ fn ∈ l := by
      intro l
      unfold eraseFile
      rw [List.mem_filter]
      simp [hfnm]
    cases hstate : e2.state with
    | kWaiting =>
        simp only [OnReceiveRequest, hstate, updatePerm]
        by_cases hp : p = src
        · simp [hp, herase]
        · simp [hp]
    | kInCriticalSection =>
        simp [OnReceiveRequest, hstate]
    | kRequesting =>
        cases hreq : e2.my_request with
        | none => simp [OnReceiveRequest, hstate, hreq]
        | some mine =>
            by_cases hfn : mine.file_name ≠ m.file_name
            · simp only [OnReceiveRequest, hstate, hreq, if_pos hfn, updatePerm]
              by_cases hp : p = src
              · simp [hp, herase]
              · simp [hp]
            · by_cases hpr : mine.timestamp > m.timestamp ∨
                  (mine.timestamp = m.timestamp ∧ self_id > src)
              · simp [OnReceiveRequest, hstate, hreq, hfn, hpr]
              · simp [OnReceiveRequest, hstate, hreq, hfn, hpr]

/-- Witness for `request_entry_sends_exactly_missing`: a waiting engine that
retains `"f"` from its only peer sends nothing and enters immediately. -/
theorem request_entry_sends_exactly_missing_witness :
    (RunWithMutualExclusion [2] engineRetained "f").2 =
      (([2].filter
          (fun p => decide ("f" ∉ engineRetained.have_permission_for p))).map
        (fun p => (p, Msg.request engineRetained.timestamp "f"))) ∧
    ((∀ p ∈ [2], ("f" : String) ∈ engineRetained.have_permission_for p) →
      (RunWithMutualExclusion [2] engineRetained "f").2 = [] ∧
      (RunWithMutualExclusion [2] engineRetained "f").1.state =
        State.kInCriticalSection) ∧
    (∀ (self_id : Nat) (e2 : Engine), e2.delayed_requests = [] →
      (ReleaseMutualExclusion self_id e2).1.have_permission_for =
        e2.have_permission_for) ∧
    (∀ (self_id : Nat) (e2 : Engine) (src : Nat) (m : RequestMessage)
        (p : Nat), m.file_name ≠ "f" →
      (("f" : String) ∈ (OnReceiveRequest self_id e2 src m).1.have_permission_for p ↔
        ("f" : String) ∈ e2.have_permission_for p)) :=
  request_entry_sends_exactly_missing [2] engineRetained "f" (by decide) (by decide)

/-- C6: a `Reply` for `m.file_name` sent to peer `src` by the request handler
removes that filename from the sender's have-permission-for set for `src`
exactly when the sender was waiting, or requesting a different filename, at
send time; the reply that concedes priority within a same-filename race
leaves the set unchanged, and no other peer's set is ever modified. -/
theorem reply_permission_removal (self_id src : Nat) (e : Engine)
    (m : RequestMessage)
    (hwf : e.state = State.kRequesting → e.my_request.isSome = true) :
    (∀ p, p ≠ src → (OnReceiveRequest self_id e src m).1.have_permission_for p =
        e.have_permission_for p) ∧
    ((OnReceiveRequest self_id e src m).2 ≠ [] →
      if e.state = State.kWaiting ∨ (e.state = State.kRequesting ∧
            e.my_request.map MutualExclusionRequest.file_name ≠ some m.file_name)
        then (OnReceiveRequest self_id e src m).1.have_permission_for src =
            eraseFile m.file_name (e.have_permission_for src)
        else (OnReceiveRequest self_id e src m).1.have_permission_for src =
            e.have_permission_for src) := by
  cases hs : e.state with
  | kWaiting =>
      constructor
      · intro p hp
        simp [OnReceiveRequest, hs, updatePerm, hp]
      · intro _
        simp [OnReceiveRequest, hs, updatePerm]
  | kInCriticalSection =>
      constructor
      · intro p hp
        simp [OnReceiveRequest, hs]
      · intro hsent
        exact absurd (by simp [OnReceiveRequest, hs]) hsent
  | kRequesting =>
      obtain ⟨mine, hmine⟩ := Option.isSome_iff_exists.mp (hwf hs)
      by_cases hfn : mine.file_name = m.file_name
      · constructor
        · intro p hp
          by_cases hpr : mine.timestamp > m.timestamp ∨
              (mine.timestamp = m.timestamp ∧ self_id > src)
          · simp [OnReceiveRequest, hs, hmine, hfn, hpr]
          · simp [OnReceiveRequest, hs, hmine, hfn, hpr]
        · intro hsent
          have hcond : ¬ (State.kRequesting = State.kWaiting ∨
              (State.kRequesting = State.kRequesting ∧
                e.my_request.map MutualExclusionRequest.file_name ≠ some m.file_name)) := by
            simp [hmine, hfn]
          rw [if_neg hcond]
          by_cases hpr : mine.timestamp > m.timestamp ∨
              (mine.timestamp = m.timestamp ∧ self_id > src)
          · simp [OnReceiveRequest, hs, hmine, hfn, hpr]
          · simp [OnReceiveRequest, hs, hmine, hfn, hpr]
      · constructor
        · intro p hp
          simp [OnReceiveRequest, hs, hmine, hfn, updatePerm, hp]
        · intro _
          have hcond : State.kRequesting = State.kWaiting ∨
              (State.kRequesting = State.kRequesting ∧
                e.my_request.map MutualExclusionRequest.file_name ≠ some m.file_name) := by
            simp [hmine, hfn]
          rw [if_pos hcond]
          simp [OnReceiveRequest, hs, hmine, hfn, updatePerm]

/-- Witness for `reply_permission_removal`: a waiting engine replying to
`Request{7, "f"}` from peer 3. -/
theorem reply_permission_removal_witness :
    (∀ p, p ≠ 3 →
      (OnReceiveRequest 1 engineClock5 3 ⟨7, "f"⟩).1.have_permission_for p =
        engineClock5.have_permission_for p) ∧
    ((OnReceiveRequest 1 engineClock5 3 ⟨7, "f"⟩).2 ≠ [] →
      if engineClock5.state = State.kWaiting ∨ (engineClock5.state = State.kRequesting ∧
            engineClock5.my_request.map MutualExclusionRequest.file_name ≠ some "f")
        then (OnReceiveRequest 1 engineClock5 3 ⟨7, "f"⟩).1.have_permission_for 3 =
            eraseFile "f" (engineClock5.have_permission_for 3)
        else (OnReceiveRequest 1 engineClock5 3 ⟨7, "f"⟩).1.have_permission_for 3 =
            engineClock5.have_permission_for 3) :=
  reply_permission_removal 1 3 engineClock5 ⟨7, "f"⟩ (by decide)

end net.mutex

namespace net.proto

/-- Little-endian round trip: extracting `n` bytes from what `insert` wrote
recovers the value modulo `256 ^ n` and leaves the rest untouched. -/
theorem bytesExtract_bytesInsert (n : Nat) :
    ∀ (v : Nat) (rest : List Nat),
      bytesExtract n (bytesInsert n v ++ rest) = some (v % 256 ^ n, rest) := by
  induction n with
  | zero =>
      intro v rest
      simp [bytesInsert, bytesExtract, Nat.mod_one]
  | succ n ih =>
      intro v rest
      rw [bytesInsert, List.cons_append, bytesExtract, ih (v / 256) rest]
      have h2 : v % 256 + 256 * (v / 256 % 256 ^ n) = v % 256 ^ (n + 1) := by
        rw [pow_succ, mul_comm (256 ^ n) 256, Nat.mod_mul]
      simp [h2]

/-- C7: for every message whose body length is at most `2^32 - 1`, encoding
it as a wire frame (one-byte opcode, four-byte little-endian length, body)
and parsing the frame back yields exactly the message, bytewise, with no
bytes left over. -/
theorem frame_round_trip (msg : Message) (h : msg.body.length ≤ kMaxBodySize) :
    ∃ frame, PutMessageInOutputBuffer msg = some frame ∧
      ProcessBytesIntoCurrentMessage frame = some (msg, []) := by
  refine ⟨msg.opcode :: (bytesInsert 4 msg.body.length ++ msg.body), ?_, ?_⟩
  · rw [PutMessageInOutputBuffer, if_neg (by omega)]
  · have hlt : msg.body.length < 256 ^ 4 := by
      have : (256 : Nat) ^ 4 = 2 ^ 32 := by norm_num
      rw [this]
      have h32 : (0 : Nat) < 2 ^ 32 := by positivity
      unfold kMaxBodySize at h
      omega
    rw [ProcessBytesIntoCurrentMessage, bytesExtract_bytesInsert,
      Nat.mod_eq_of_lt hlt]
    simp

/-- Witness for `frame_round_trip`. -/
theorem frame_round_trip_witness :
    ∃ frame, PutMessageInOutputBuffer ⟨9, [1, 2, 3]⟩ = some frame ∧
      ProcessBytesIntoCurrentMessage frame = some (⟨9, [1, 2, 3]⟩, []) :=
  frame_round_trip ⟨9, [1, 2, 3]⟩ (by decide)

/-- `get_until` on a body whose prefix is free of carriage returns finds the
delimiter exactly at the encoded position. -/
theorem get_until_no_cr (l f : List Char) :
    ∀ acc : List Char, '\r' ∉ f →
      get_until kStringDelimiter (f ++ '\r' :: '\n' :: l) acc 0 = (acc ++ f, l) := by
  induction f with
  | nil =>
      intro acc _
      simp [get_until, kStringDelimiter]
  | cons c f ih =>
      intro acc hc
      have hcne : c ≠ '\r' := fun hceq => hc (hceq ▸ List.mem_cons_self c f)
      rw [List.cons_append, get_until, if_neg (by simpa [kStringDelimiter] using hcne)]
      rw [ih (acc ++ kStringDelimiter.take 0 ++ [c]) (fun hm => hc (List.mem_cons_of_mem c hm))]
      simp

/-- C10 counterexample: the file name `"a\r"` contains no `"\r\n"`, yet the
decode of its encoding is not the original pair — the scanner's restart bug
swallows the delimiter, returning the whole body as the file name and an
empty line. -/
theorem to_write_round_trip_counterexample :
    ¬ ['\r', '\n'] <:+: ['a', '\r'] ∧
    ToWrite (WriteMessage.toBody ⟨['a', '\r'], ['x']⟩) =
      ⟨['a', '\r', '\r', '\n', 'x'], []⟩ ∧
    (⟨['a', '\r', '\r', '\n', 'x'], ([] : List Char)⟩ : WriteMessage) ≠
      ⟨['a', '\r'], ['x']⟩ := by
  decide

/-- C10 (amended): decoding a `Write` body splits it at the first delimiter
match found by `get_until`'s scanner.  For every file name free of carriage
returns (not merely free of the full `"\r\n"` delimiter — a trailing bare
`'\r'` already breaks the scan) the round trip is the identity; and for the
file name `"a\r\nb"`, which contains the delimiter, the decoded pair is cut
at the first delimiter occurrence. -/
theorem write_message_round_trip :
    (∀ w : WriteMessage, '\r' ∉ w.file_name → ToWrite w.toBody = w) ∧
    ToWrite (WriteMessage.toBody ⟨['a', '\r', '\n', 'b'], ['x']⟩) =
      ⟨['a'], ['b', '\r', '\n', 'x']⟩ := by
  constructor
  · intro w hw
    rw [WriteMessage.toBody, ToWrite]
    have : w.file_name ++ kStringDelimiter ++ w.line =
        w.file_name ++ '\r' :: '\n' :: w.line := by
      simp [kStringDelimiter]
    rw [this, get_until_no_cr w.line w.file_name [] hw]
    simp
  · decide

/-- Witness for `write_message_round_trip`. -/
theorem write_message_round_trip_witness :
    ToWrite (WriteMessage.toBody ⟨['b'], ['y']⟩) = ⟨['b'], ['y']⟩ :=
  write_message_round_trip.1 ⟨['b'], ['y']⟩ (by decide)

end net.proto

namespace net.server.service

/-- A list without newlines is taken whole by the newline `takeWhile`. -/
theorem takeWhile_no_newline (c : List Char) (h : '\n' ∉ c) :
    c.takeWhile (fun x => x ≠ '\n') = c := by
  induction c with
  | nil => rfl
  | cons a c ih =>
      have ha : a ≠ '\n' := fun he => h (he ▸ List.mem_cons_self a c)
      rw [List.takeWhile_cons, if_pos (by simpa using ha),
        ih (fun hm => h (List.mem_cons_of_mem a hm))]

/-- The newline `takeWhile` stops exactly at the first newline. -/
theorem takeWhile_until_newline (u v : List Char) (hu : '\n' ∉ u) :
    (u ++ '\n' :: v).takeWhile (fun x => x ≠ '\n') = u := by
  induction u with
  | nil => simp [List.takeWhile_cons]
  | cons a u ih =>
      have ha : a ≠ '\n' := fun he => hu (he ▸ List.mem_cons_self a u)
      rw [List.cons_append, List.takeWhile_cons, if_pos (by simpa using ha),
        ih (fun hm => hu (List.mem_cons_of_mem a hm))]

/-- The text after the last newline of `u ++ '\n' :: z` is `z` when `z` has
no newline. -/
theorem after_last_newline (u z : List Char) (hz : '\n' ∉ z) :
    ((u ++ '\n' :: z).reverse.takeWhile (fun x => x ≠ '\n')).reverse = z := by
  rw [List.reverse_append, List.reverse_cons,
    show z.reverse ++ ['\n'] ++ u.reverse = z.reverse ++ '\n' :: u.reverse by simp,
    takeWhile_until_newline _ _ (by simpa using hz), List.reverse_reverse]

/-- When the backward scan finds nothing, no position below the bound holds a
newline. -/
theorem scanBack_none (c : List Char) :
    ∀ i, scanBackForNewline c i = none → ∀ k, k < i → c.getD k ' ' ≠ '\n' := by
  intro i
  induction i with
  | zero =>
      intro _ k hk
      exact absurd hk (Nat.not_lt_zero k)
  | succ p ih =>
      intro h k hk
      rw [scanBackForNewline] at h
      by_cases hp : c.getD p ' ' = '\n'
      · rw [if_pos hp] at h
        cases h
      · rw [if_neg hp] at h
        rcases Nat.lt_succ_iff_lt_or_eq.mp hk with h1 | h1
        · exact ih h k h1
        · exact h1 ▸ hp

/-- When the backward scan finds position `j`, there is a newline at `j` and
none strictly between `j` and the bound. -/
theorem scanBack_some (c : List Char) :
    ∀ i j, scanBackForNewline c i = some j →
      j < i ∧ c.getD j ' ' = '\n' ∧ ∀ k, j < k → k < i → c.getD k ' ' ≠ '\n' := by
  intro i
  induction i with
  | zero =>
      intro j h
      cases h
  | succ p ih =>
      intro j h
      rw [scanBackForNewline] at h
      by_cases hp : c.getD p ' ' = '\n'
      · rw [if_pos hp] at h
        cases h
        exact ⟨Nat.lt_succ_self p, hp, fun k hk1 hk2 => absurd hk2 (by omega)⟩
      · rw [if_neg hp] at h
        obtain ⟨h1, h2, h3⟩ := ih j h
        refine ⟨Nat.lt_succ_of_lt h1, h2, fun k hk1 hk2 => ?_⟩
        rcases Nat.lt_succ_iff_lt_or_eq.mp hk2 with h4 | h4
        · exact h3 k hk1 h4
        · exact h4 ▸ hp

/-- Position-wise absence of newlines gives membership-wise absence. -/
theorem no_newline_of_getD (c : List Char)
    (h : ∀ k, k < c.length → c.getD k ' ' ≠ '\n') : '\n' ∉ c := by
  intro hm
  obtain ⟨m, hm1, hm2⟩ := List.mem_iff_getElem.mp hm
  exact h m hm1 (by rw [List.getD_eq_getElem c ' ' hm1, hm2])

/-- Split a list at a known newline position. -/
theorem decomp_at_newline (c : List Char) (j : Nat) (hj : j < c.length)
    (hnl : c.getD j ' ' = '\n') :
    c = c.take j ++ '\n' :: c.drop (j + 1) := by
  conv_lhs => rw [← List.take_append_drop j c]
  rw [List.drop_eq_getElem_cons hj]
  rw [List.getD_eq_getElem c ' ' hj] at hnl
  rw [hnl]

/-- `getD` through `drop`. -/
theorem getD_drop (c : List Char) (i m : Nat) (h : i + m < c.length) :
    (c.drop i).getD m ' ' = c.getD (i + m) ' ' := by
  have h1 : m < (c.drop i).length := by
    rw [List.length_drop]
    omega
  rw [List.getD_eq_getElem _ ' ' h1, List.getD_eq_getElem _ ' ' h, List.getElem_drop]

/-- `getD` through `take`. -/
theorem getD_take (c : List Char) (j m : Nat) (h1 : m < j) (h2 : m < c.length) :
    (c.take j).getD m ' ' = c.getD m ' ' := by
  have h3 : m < (c.take j).length := by
    rw [List.length_take]
    omega
  rw [List.getD_eq_getElem _ ' ' h3, List.getD_eq_getElem _ ' ' h2, List.getElem_take]

/-- The last-element bridge between `getLast?` and `getD`. -/
theorem getLast?_eq_getD (c : List Char) (h : c ≠ []) :
    c.getLast? = some (c.getD (c.length - 1) ' ') := by
  have hlen : c.length - 1 < c.length := by
    have := List.length_pos.mpr h
    omega
  rw [List.getLast?_eq_getElem?, List.getElem?_eq_getElem hlen,
    List.getD_eq_getElem c ' ' hlen]

end net.server.service

namespace net.server.service

/-- Positions bridge to membership: a newline found by index is a member. -/
theorem mem_of_getD_eq (c : List Char) (j : Nat) (hj : j < c.length)
    (h : c.getD j ' ' = '\n') : '\n' ∈ c := by
  rw [List.getD_eq_getElem c ' ' hj] at h
  exact h ▸ List.getElem_mem hj

/-- C8 (code bug): the claim's own example `"abc"` (no newline) must yield
`"abc"`, but the program returns the empty string: the backward scan's
`seekg(-1)` fails at the start of the file, which sets failbit, and the
stream is never cleared, so the final `getline` extracts nothing.  Every
content whose trimmed form has no newline — that is, every single-line file
— is affected (`"ab\n"` also gives `""`), while contents with an interior
newline still work (`"a\nb\n"` gives `"b"`; `""` and `"\n"` give `""` as
claimed). -/
theorem read_last_line_failbit_bug :
    ReadLastLine ['a', 'b', 'c'] = [] ∧
    SpecLastLine ['a', 'b', 'c'] = ['a', 'b', 'c'] ∧
    (([] : List Char) ≠ ['a', 'b', 'c']) ∧
    ReadLastLine ['a', 'b', '\n'] = [] ∧
    ReadLastLine ['a', '\n', 'b', '\n'] = ['b'] ∧
    ReadLastLine [] = [] ∧
    ReadLastLine ['\n'] = [] := by
  decide

/-- Full characterisation of `ReadLastLine` on contents that do not end in
two consecutive newlines: when the content (one trailing newline ignored)
contains a newline, the result is the text after the last newline, exactly
the spec's reading; when it contains none, the failed backward seek poisons
the stream and the result is the empty string. -/
theorem read_last_line_characterization (content : List Char)
    (h2nl : ¬ ['\n', '\n'] <:+ content) :
    ('\n' ∈ (if content.getLast? = some '\n' then content.dropLast
        else content) →
      ReadLastLine content = SpecLastLine content) ∧
    ('\n' ∉ (if content.getLast? = some '\n' then content.dropLast
        else content) →
      ReadLastLine content = []) := by
  rcases eq_or_ne content [] with rfl | hne
  · exact ⟨fun h => absurd h (by decide), fun _ => rfl⟩
  · have hpos : 0 < content.length := List.length_pos.mpr hne
    by_cases hlast : content.getD (content.length - 1) ' ' = '\n'
    · by_cases hone : content.length - 1 = 0
      · obtain ⟨a, ha⟩ := List.length_eq_one.mp (show content.length = 1 by omega)
        subst ha
        have haeq : a = '\n' := by simpa using hlast
        subst haeq
        exact ⟨fun h => absurd h (by decide), fun _ => rfl⟩
      · -- content ends in a newline and has length at least two; by the
        -- hypothesis the character before the trailing newline is not one
        have hz : content.drop (content.length - 1) = ['\n'] := by
          rw [List.drop_eq_getElem_cons
              (by omega : content.length - 1 < content.length),
            ← List.getD_eq_getElem content ' '
              (by omega : content.length - 1 < content.length), hlast,
            show content.length - 1 + 1 = content.length by omega,
            List.drop_length]
        have hw : content = content.take (content.length - 1) ++ ['\n'] := by
          conv_lhs => rw [← List.take_append_drop (content.length - 1) content]
          rw [hz]
        have hwlen : (content.take (content.length - 1)).length =
            content.length - 1 := by
          rw [List.length_take]
          omega
        have hprev : content.getD (content.length - 2) ' ' ≠ '\n' := by
          intro hp
          apply h2nl
          have hd1 : content =
              content.take (content.length - 2) ++ '\n' ::
                content.drop (content.length - 2 + 1) :=
            decomp_at_newline content (content.length - 2) (by omega) hp
          refine ⟨content.take (content.length - 2), ?_⟩
          conv_rhs => rw [hd1]
          rw [show content.length - 2 + 1 = content.length - 1 by omega, hz]
        have hdropLast : content.dropLast = content.take (content.length - 1) := by
          conv_lhs => rw [hw]
          exact List.dropLast_concat
        have hiftrim :
            (if content.getLast? = some '\n' then content.dropLast
              else content) = content.take (content.length - 1) := by
          rw [getLast?_eq_getD content hne, hlast, if_pos rfl]
          exact hdropLast
        unfold SpecLastLine
        rw [hiftrim]
        unfold ReadLastLine
        rw [if_neg (show ¬ content.length = 0 by omega),
          if_neg (show ¬ (content.getD (content.length - 1) ' ' = '\n' ∧
            content.length - 1 = 0) from fun hand => hone hand.2),
          if_pos hlast]
        rcases hscan : scanBackForNewline content (content.length - 1 - 1)
          with _ | j
        · -- no newline before the trailing one: failbit, empty result
          have hnomem : '\n' ∉ content.take (content.length - 1) := by
            apply no_newline_of_getD
            intro k hk
            rw [hwlen] at hk
            rw [getD_take content _ k hk (by omega)]
            rcases Nat.lt_or_ge k (content.length - 2) with h1 | h1
            · exact scanBack_none content (content.length - 1 - 1) hscan k
                (by omega)
            · have hkeq : k = content.length - 2 := by omega
              exact hkeq ▸ hprev
          exact ⟨fun hmem => absurd hmem hnomem, fun _ => rfl⟩
        · obtain ⟨hj1, hj2, hj3⟩ :=
            scanBack_some content (content.length - 1 - 1) j hscan
          have hmemtake : '\n' ∈ content.take (content.length - 1) := by
            apply mem_of_getD_eq _ j (by rw [hwlen]; omega)
            rw [getD_take content _ j (by omega) (by omega)]
            exact hj2
          refine ⟨fun _ => ?_, fun hmem => absurd hmemtake hmem⟩
          show (content.drop (j + 1)).takeWhile (fun c => c ≠ '\n') =
            ((content.take (content.length - 1)).reverse.takeWhile
              (fun c => c ≠ '\n')).reverse
          have hjw : content.getD j ' ' =
              (content.take (content.length - 1)).getD j ' ' :=
            (getD_take content _ j (by omega) (by omega)).symm
          have hnomem : '\n' ∉ (content.take (content.length - 1)).drop (j + 1) := by
            apply no_newline_of_getD
            intro m hm
            rw [List.length_drop, hwlen] at hm
            rw [getD_drop _ _ m (by rw [hwlen]; omega),
              getD_take content _ _ (by omega) (by omega)]
            rcases Nat.lt_or_ge (j + 1 + m) (content.length - 2) with h1 | h1
            · exact hj3 (j + 1 + m) (by omega) (by omega)
            · have hkeq : j + 1 + m = content.length - 2 := by omega
              exact hkeq ▸ hprev
          have hzy : content.drop (j + 1) =
              (content.take (content.length - 1)).drop (j + 1) ++ ['\n'] := by
            conv_lhs => rw [hw]
            rw [List.drop_append_of_le_length (by rw [hwlen]; omega)]
          have hdw : content.take (content.length - 1) =
              (content.take (content.length - 1)).take j ++ '\n' ::
                (content.take (content.length - 1)).drop (j + 1) :=
            decomp_at_newline _ j (by rw [hwlen]; omega) (hjw ▸ hj2)
          rw [hzy, takeWhile_until_newline _ _ hnomem]
          conv_rhs => rw [hdw]
          rw [after_last_newline _ _ hnomem]
    · -- the content does not end in a newline
      have hiftrim :
          (if content.getLast? = some '\n' then content.dropLast
            else content) = content := by
        rw [getLast?_eq_getD content hne, if_neg (by simpa using hlast)]
      unfold SpecLastLine
      rw [hiftrim]
      unfold ReadLastLine
      rw [if_neg (show ¬ content.length = 0 by omega),
        if_neg (show ¬ (content.getD (content.length - 1) ' ' = '\n' ∧
          content.length - 1 = 0) from fun hand => hlast hand.1),
        if_neg hlast]
      rcases hscan : scanBackForNewline content (content.length - 1) with _ | j
      · -- no newline anywhere: failbit, empty result
        have hnomem : '\n' ∉ content := by
          apply no_newline_of_getD
          intro k hk
          rcases Nat.lt_or_ge k (content.length - 1) with h1 | h1
          · exact scanBack_none content (content.length - 1) hscan k h1
          · have hkeq : k = content.length - 1 := by omega
            exact hkeq ▸ hlast
        exact ⟨fun hmem => absurd hmem hnomem, fun _ => rfl⟩
      · obtain ⟨hj1, hj2, hj3⟩ :=
          scanBack_some content (content.length - 1) j hscan
        have hmemc : '\n' ∈ content := mem_of_getD_eq content j (by omega) hj2
        refine ⟨fun _ => ?_, fun hmem => absurd hmemc hmem⟩
        show (content.drop (j + 1)).takeWhile (fun c => c ≠ '\n') =
          (content.reverse.takeWhile (fun c => c ≠ '\n')).reverse
        have hnomem : '\n' ∉ content.drop (j + 1) := by
          apply no_newline_of_getD
          intro m hm
          rw [List.length_drop] at hm
          rw [getD_drop _ _ m (by omega)]
          rcases Nat.lt_or_ge (j + 1 + m) (content.length - 1) with h1 | h1
          · exact hj3 (j + 1 + m) (by omega) h1
          · have hkeq : j + 1 + m = content.length - 1 := by omega
            exact hkeq ▸ hlast
        have hdecomp : content = content.take j ++ '\n' :: content.drop (j + 1) :=
          decomp_at_newline content j (by omega) hj2
        rw [takeWhile_no_newline _ hnomem]
        conv_rhs => rw [hdecomp]
        rw [after_last_newline _ _ hnomem]

end net.server.service
namespace net.server.service

/-- Collapsing does nothing to a separator-free list. -/
theorem collapseSepsAux_no_slash (l : List Char) :
    ∀ prev, '/' ∉ l → collapseSepsAux prev l = l := by
  induction l with
  | nil => intro prev _; rfl
  | cons c l ih =>
      intro prev h
      have hc : c ≠ '/' := fun he => h (he ▸ List.mem_cons_self c l)
      rw [collapseSepsAux, if_neg (fun hand => hc hand.2),
        ih c (fun hm => h (List.mem_cons_of_mem c hm))]

/-- Collapsing does nothing to a separator-free list. -/
theorem collapseSeps_no_slash (l : List Char) (h : '/' ∉ l) :
    collapseSeps l = l := by
  cases l with
  | nil => rfl
  | cons c m =>
      rw [collapseSeps, collapseSepsAux_no_slash m c
        (fun hm => h (List.mem_cons_of_mem c hm))]

/-- A separator-free list is a single component. -/
theorem splitOnSlash_no_slash (l : List Char) (h : '/' ∉ l) :
    splitOnSlash l = [l] := by
  induction l with
  | nil => rfl
  | cons a l ih =>
      have ha : a ≠ '/' := fun he => h (he ▸ List.mem_cons_self a l)
      rw [splitOnSlash, ih (fun hm => h (List.mem_cons_of_mem a hm))]
      show (if a = '/' then [[], l] else [a :: l]) = [a :: l]
      rw [if_neg ha]

/-- A plain non-empty separator-free name parses to a single relative
component. -/
theorem parsePath_plain (s : String) (hslash : '/' ∉ s.toList) (hne : s ≠ "") :
    parsePath s = ⟨false, [s]⟩ := by
  have hlne : s.toList ≠ [] := by
    intro he
    apply hne
    cases s with
    | mk data => simpa [String.toList] using congrArg String.mk he
  have habs : s.toList.headI ≠ '/' := by
    cases hl : s.toList with
    | nil => exact absurd hl hlne
    | cons a m =>
        have ha : a ≠ '/' := fun he => hslash (by
          rw [hl, he]
          exact List.mem_cons_self _ _)
        simpa [List.headI] using ha
  unfold parsePath
  rw [collapseSeps_no_slash s.toList hslash, if_neg habs, if_neg hlne,
    splitOnSlash_no_slash s.toList hslash]
  have hmk : String.mk s.toList = s := by
    cases s with
    | mk data => rfl
  simp [hmk]

/-- Appending a single relative component to a path with no trailing empty
component. -/
theorem pathAppend_plain (rc : List String) (name : String)
    (hlast : rc.getLast? ≠ some "") :
    pathAppend ⟨true, rc⟩ ⟨false, [name]⟩ = ⟨true, rc ++ [name]⟩ := by
  rw [pathAppend]
  simp only [Bool.false_eq_true, if_false]
  rw [if_neg hlast]

/-- The normalisation loop is the identity on components that are neither
empty nor dots. -/
theorem lexNormalLoop_good (items : List String)
    (hgood : ∀ c ∈ items, c ≠ "" ∧ c ≠ "." ∧ c ≠ "..") :
    ∀ (acc : List String) (b : Bool), acc.getLast? ≠ some "" →
      lexicallyNormalLoop true items ⟨true, acc⟩ b = ⟨true, acc ++ items⟩ := by
  induction items with
  | nil =>
      intro acc b _
      rw [lexicallyNormalLoop, if_neg (by simp), List.append_nil]
  | cons name rest ih =>
      intro acc b hacc
      obtain ⟨h1, h2, h3⟩ := hgood name (List.mem_cons_self name rest)
      rw [lexicallyNormalLoop, if_neg h2, if_neg (fun hand => h3 hand.1)]
      have hstep :
          (if name = "" ∧ b then (⟨true, acc⟩ : RPath)
            else if name = "" then addTrailingSep ⟨true, acc⟩
            else appendComp ⟨true, acc⟩ name) = ⟨true, acc ++ [name]⟩ := by
        rw [if_neg (fun hand => h1 hand.1), if_neg h1, appendComp]
        simp only []
        rw [if_neg hacc]
      rw [hstep, ih (fun c hc => hgood c (List.mem_cons_of_mem name hc))
        (acc ++ [name]) (name = "..")
        (by simpa using h1), List.append_assoc]
      rfl

/-- Normalisation is the identity on an absolute path of good components. -/
theorem lexically_normal_good (comps : List String)
    (hgood : ∀ c ∈ comps, c ≠ "" ∧ c ≠ "." ∧ c ≠ "..") :
    lexically_normal ⟨true, comps⟩ = ⟨true, comps⟩ := by
  rw [lexically_normal]
  simp only [if_pos rfl]
  rw [lexNormalLoop_good comps hgood [] false (by simp)]
  rfl

/-- The common prefix of a list with its own extension is the whole list. -/
theorem commonPrefixLen_append (l m : List String) :
    commonPrefixLen l (l ++ m) = l.length := by
  induction l with
  | nil => cases m <;> rfl
  | cons a l ih =>
      rw [List.cons_append, commonPrefixLen, if_pos rfl, ih]
      simp

/-- The relative offset from a direct child back to the root is `".."`. -/
theorem lexically_relative_direct_child (rc : List String) (name : String)
    (hname : name ≠ "" ∧ name ≠ "." ∧ name ≠ "..") :
    lexically_relative ⟨true, rc⟩ ⟨true, rc ++ [name]⟩ = dotdotPath := by
  rw [lexically_relative, if_neg (by simp)]
  simp only []
  rw [commonPrefixLen_append rc [name]]
  have hlen : ¬ (rc.length = rc.length ∧ rc.length = (rc ++ [name]).length) := by
    simp
  rw [if_neg hlen, List.drop_left]
  have hcount : relativeCount [name] = 1 := by
    rw [relativeCount, List.foldl, List.foldl, if_pos hname]
    norm_num
  rw [hcount, if_neg (by norm_num), List.drop_length]
  rfl

/-- C9 counterexample: the hidden file name `".h"` (leading dot) resolves to
a direct child of the root, so `AppendLine` accepts it, appends
`"x" + '\n'`, and the server replies `Ok` — the claimed hidden-file
rejection does not exist on the write path (the read path's validation does
reject it, as the second conjunct shows). -/
theorem append_line_hidden_name_counterexample :
    ((".h" : String).toList.getD 0 '\x00' = '.') ∧
    readValidationFails rootExample ".h" = true ∧
    appendResultAt (AppendLine rootExample emptyFiles ".h" "x")
      ⟨true, ["root", ".h"]⟩ = some ['x', '\n'] ∧
    (HandleWrite rootExample emptyFiles ".h" "x").2 = ServerReply.ok := by
  decide

/-- C9 (amended): for a normalised absolute root, when `root / name` fails
the direct-child check (`root.lexically_relative(normalized) != ".."`),
`AppendLine` fails with `Invalid file access`, nothing is appended, and
`HandleWrite` replies `Error`; when the check passes, `AppendLine` appends
`line + '\n'` at the resolved path and `HandleWrite` replies `Ok`.  Hidden
names are *not* rejected on the write path: every plain separator-free name
other than `""`, `"."` and `".."` — leading dot or not — resolves to the
direct child `root/name` and is accepted, while the read path's validation
rejects every name with a leading dot. -/
theorem append_line_spec (root : RPath) (files : RPath → List Char)
    (name line : String)
    (hroot : root.abs = true ∧ ∀ c ∈ root.comps, c ≠ "" ∧ c ≠ "." ∧ c ≠ "..") :
    (writeValidationFails root name = true →
      AppendLine root files name line = Except.error "Invalid file access" ∧
      HandleWrite root files name line =
        (files, ServerReply.error "Invalid file access")) ∧
    (writeValidationFails root name = false →
      AppendLine root files name line = Except.ok (fun p =>
        if p = fullPath root name then files p ++ line.toList ++ ['\n']
        else files p) ∧
      (HandleWrite root files name line).2 = ServerReply.ok) ∧
    ('/' ∉ name.toList → name ≠ "" → name ≠ "." → name ≠ ".." →
      writeValidationFails root name = false ∧
      fullPath root name = ⟨true, root.comps ++ [name]⟩) ∧
    (name.toList.getD 0 '\x00' = '.' → readValidationFails root name = true) := by
  obtain ⟨habs, hgood⟩ := hroot
  refine ⟨?_, ?_, ?_, ?_⟩
  · intro h
    constructor
    · rw [AppendLine, if_pos h]
    · rw [HandleWrite, AppendLine, if_pos h]
  · intro h
    constructor
    · rw [AppendLine, if_neg (by rw [h]; exact Bool.false_ne_true)]
    · rw [HandleWrite, AppendLine, if_neg (by rw [h]; exact Bool.false_ne_true)]
  · intro hs h1 h2 h3
    have hlastroot : root.comps.getLast? ≠ some "" := by
      intro hl
      exact (hgood "" (List.mem_of_mem_getLast? (by rw [hl]; rfl))).1 rfl
    have hfull : fullPath root name = ⟨true, root.comps ++ [name]⟩ := by
      rw [fullPath, parsePath_plain name hs h1]
      obtain ⟨ab, rc⟩ := root
      simp only [] at habs hlastroot
      subst habs
      rw [pathAppend_plain rc name hlastroot,
        lexically_normal_good (rc ++ [name]) ?_]
      intro c hc
      rcases List.mem_append.mp hc with hc1 | hc1
      · exact hgood c hc1
      · have : c = name := by simpa using hc1
        exact this ▸ ⟨h1, h2, h3⟩
    have hrel : lexically_relative root (fullPath root name) = dotdotPath := by
      rw [hfull]
      obtain ⟨ab, rc⟩ := root
      simp only [] at habs
      subst habs
      exact lexically_relative_direct_child rc name ⟨h1, h2, h3⟩
    constructor
    · simp [writeValidationFails, hrel]
    · exact hfull
  · intro h
    have h2 : name.data[0]?.getD '\x00' = '.' := by
      rw [← List.getD_eq_getElem?_getD]
      exact h
    simp [readValidationFails, h2]

/-- Witness for `append_line_spec`, at the server root `/root` and the
hidden name `".h"`. -/
theorem append_line_spec_witness :
    (writeValidationFails rootExample ".h" = true →
      AppendLine rootExample emptyFiles ".h" "x" =
        Except.error "Invalid file access" ∧
      HandleWrite rootExample emptyFiles ".h" "x" =
        (emptyFiles, ServerReply.error "Invalid file access")) ∧
    (writeValidationFails rootExample ".h" = false →
      AppendLine rootExample emptyFiles ".h" "x" = Except.ok (fun p =>
        if p = fullPath rootExample ".h" then
          emptyFiles p ++ ("x" : String).toList ++ ['\n']
        else emptyFiles p) ∧
      (HandleWrite rootExample emptyFiles ".h" "x").2 = ServerReply.ok) ∧
    ('/' ∉ (".h" : String).toList → (".h" : String) ≠ "" →
      (".h" : String) ≠ "." → (".h" : String) ≠ ".." →
      writeValidationFails rootExample ".h" = false ∧
      fullPath rootExample ".h" = ⟨true, rootExample.comps ++ [".h"]⟩) ∧
    ((".h" : String).toList.getD 0 '\x00' = '.' →
      readValidationFails rootExample ".h" = true) :=
  append_line_spec rootExample emptyFiles ".h" "x" (by decide)

end net.server.service
